import Mathlib

/-!
Verification of the osm-coffee client core: the response cache
(`js/cache.js`), the location classification and coordinate extraction
helpers (`js/utils.js`, `js/api.js`), and the request-cancellation
discipline of `fetchCoffeeLocations` (`js/api.js`).

JavaScript numbers are modelled as rationals, JS objects consulted only
through a fixed set of keys as structures with optional fields, the
`Map` backing the cache as an association list in insertion order, and
the asynchronous fetch coordinator as a labelled small-step transition
system over an explicit global state.
-/

/-- `CONFIG.CACHE_TTL` from `js/config.js`: 10 minutes in milliseconds. -/
def CACHE_TTL : ℤ := 10 * 60 * 1000

/-- `CONFIG.CACHE_MAX_SIZE` from `js/config.js`. -/
def CACHE_MAX_SIZE : ℕ := 50

/-- The OSM tag fields consulted by `getLocationType` in `js/utils.js`;
a missing field models a JS `undefined` property. -/
structure Tags where
  craft : Option String := none
  shop : Option String := none
  amenity : Option String := none
  cuisine : Option String := none
deriving DecidableEq

/-- A `center` object on an OSM element (present on ways returned with
`out center`); its own fields may in turn be absent. -/
structure Center where
  lat : Option ℚ
  lon : Option ℚ
deriving DecidableEq

/-- A raw Overpass element as consumed by `js/api.js`: an element kind
string, optional direct coordinates, an optional centroid and an
optional tag mapping. -/
structure OSMElement where
  type : String
  lat : Option ℚ := none
  lon : Option ℚ := none
  center : Option Center := none
  tags : Option Tags := none
deriving DecidableEq

/-- The coordinate pair built by `getElementCoordinates`; either field
may be a JS `undefined`, modelled as `none`. -/
structure Coords where
  lat : Option ℚ
  lon : Option ℚ
deriving DecidableEq

/-- `getElementCoordinates` from `js/api.js`: a `node` element yields
its own `lat`/`lon` fields, any other element yields its `center`
coordinates when a `center` object is present, otherwise `null`. -/
def getElementCoordinates (element : OSMElement) : Option Coords :=
  if element.type = "node" then
    some ⟨element.lat, element.lon⟩
  else
    match element.center with
    | some c => some ⟨c.lat, c.lon⟩
    | none => none

/-- The `{ type, label }` record returned by `getLocationType`. -/
structure LocationType where
  type : String
  label : String
deriving DecidableEq

/-- `getLocationType` from `js/utils.js`: first-match classification of
a tag mapping. -/
def getLocationType (tags : Tags) : LocationType :=
  if tags.craft = some "roaster" then
    ⟨"roastery", "Roastery 🔥"⟩
  else if tags.shop = some "coffee" then
    ⟨"shop", "Coffee Shop 🏪"⟩
  else if tags.amenity = some "fast_food" ∧ tags.cuisine = some "sandwich" then
    ⟨"sandwich", "Sandwich Shop 🥪"⟩
  else
    ⟨"cafe", "Cafe ☕"⟩

/-- A JS object holding boolean filter flags, as an association list in
property-insertion order. -/
abbrev FilterState := List (String × Bool)

/-- The default `filterState` object from `js/config.js`:
all of `cafe`, `shop`, `roastery` enabled. -/
def filterState : FilterState := [("cafe", true), ("shop", true), ("roastery", true)]

/-- The JS property read `filters[type]` used as a boolean: an absent
property (`undefined`) is falsy, so the lookup defaults to `false`. -/
def filterLookup (fs : FilterState) (t : String) : Bool :=
  match fs.find? (fun kv => kv.1 == t) with
  | some kv => kv.2
  | none => false

/-- The `element.tags || {}` coalescing in `fetchCoffeeLocations`. -/
def elementTags (element : OSMElement) : Tags :=
  element.tags.getD ⟨none, none, none, none⟩

/-- The predicate of the `data.elements.filter(...)` callback in
`fetchCoffeeLocations`: keep an element iff its coordinates resolve and
the filter flag for its classified type is truthy. -/
def keepElement (fs : FilterState) (element : OSMElement) : Bool :=
  match getElementCoordinates element with
  | none => false
  | some _ => filterLookup fs (getLocationType (elementTags element)).type

/-- The element filtering performed by `fetchCoffeeLocations` on a
successful response, before caching and returning. -/
def filterElements (fs : FilterState) (elems : List OSMElement) : List OSMElement :=
  elems.filter (keepElement fs)

/-- C5: `getLocationType` classifies in strict first-match priority
order: `craft=roaster` yields `roastery`; else `shop=coffee` yields
`shop`; else `amenity=fast_food` with `cuisine=sandwich` yields
`sandwich`; else `cafe`. In particular `{craft:"roaster",
shop:"coffee"}` classifies as `roastery`, `{shop:"coffee",
amenity:"cafe"}` as `shop`, and empty tags as `cafe`. -/
theorem getLocationType_priority (t : Tags) :
    (t.craft = some "roaster" → getLocationType t = ⟨"roastery", "Roastery 🔥"⟩) ∧
    (t.craft ≠ some "roaster" → t.shop = some "coffee" →
      getLocationType t = ⟨"shop", "Coffee Shop 🏪"⟩) ∧
    (t.craft ≠ some "roaster" → t.shop ≠ some "coffee" →
      t.amenity = some "fast_food" → t.cuisine = some "sandwich" →
      getLocationType t = ⟨"sandwich", "Sandwich Shop 🥪"⟩) ∧
    (t.craft ≠ some "roaster" → t.shop ≠ some "coffee" →
      ¬(t.amenity = some "fast_food" ∧ t.cuisine = some "sandwich") →
      getLocationType t = ⟨"cafe", "Cafe ☕"⟩) ∧
    getLocationType ⟨some "roaster", some "coffee", none, none⟩ = ⟨"roastery", "Roastery 🔥"⟩ ∧
    getLocationType ⟨none, some "coffee", some "cafe", none⟩ = ⟨"shop", "Coffee Shop 🏪"⟩ ∧
    getLocationType ⟨none, none, none, none⟩ = ⟨"cafe", "Cafe ☕"⟩ := by
  refine ⟨?_, ?_, ?_, ?_, by decide, by decide, by decide⟩
  · intro h; simp [getLocationType, h]
  · intro h1 h2; simp [getLocationType, h1, h2]
  · intro h1 h2 h3 h4; simp [getLocationType, h1, h2, h3, h4]
  · intro h1 h2 h3; simp [getLocationType, h1, h2, h3]

/-- Witness for C5: concrete roaster-and-shop tags classify as
roastery through the first branch. -/
theorem getLocationType_priority_witness :
    getLocationType ⟨some "roaster", some "coffee", none, none⟩ =
      ⟨"roastery", "Roastery 🔥"⟩ :=
  (getLocationType_priority ⟨some "roaster", some "coffee", none, none⟩).1 rfl

/-- A `way` element carrying both direct `lat`/`lon` fields and a
`center` object, used to separate presence-based from kind-based
coordinate extraction. -/
def wayWithBoth : OSMElement :=
  ⟨"way", some 1, some 2, some ⟨some 3, some 4⟩, none⟩

/-- C6 counterexample: on an element that carries direct `lat`/`lon`
fields together with a `center`, `getElementCoordinates` returns the
centroid, not the direct coordinates — the code branches on
`type === 'node'`, not on coordinate presence, so direct coordinates do
not take precedence for non-node elements. -/
theorem getElementCoordinates_prefersDirect_counterexample :
    wayWithBoth.lat = some 1 ∧ wayWithBoth.lon = some 2 ∧
    wayWithBoth.center = some ⟨some 3, some 4⟩ ∧
    getElementCoordinates wayWithBoth = some ⟨some 3, some 4⟩ ∧
    getElementCoordinates wayWithBoth ≠ some ⟨wayWithBoth.lat, wayWithBoth.lon⟩ := by
  decide

/-- C6 (amended): `getElementCoordinates` returns the element's own
`lat`/`lon` fields exactly when the element's `type` is `"node"` (even
when those fields are absent); otherwise it falls back to the `center`
coordinates when a `center` object is present, and signals absence
(`null`) when it is not. For `node` elements the direct fields take
precedence even when a centroid is also present. -/
theorem getElementCoordinates_amended (e : OSMElement) :
    (e.type = "node" → getElementCoordinates e = some ⟨e.lat, e.lon⟩) ∧
    (∀ c, e.type ≠ "node" → e.center = some c →
      getElementCoordinates e = some ⟨c.lat, c.lon⟩) ∧
    (e.type ≠ "node" → e.center = none → getElementCoordinates e = none) := by
  refine ⟨fun h => by simp [getElementCoordinates, h], ?_, ?_⟩
  · intro c h hc; simp [getElementCoordinates, h, hc]
  · intro h hc; simp [getElementCoordinates, h, hc]

/-- Witness for the amended C6: a node with both direct coordinates and
a centroid yields the direct coordinates. -/
theorem getElementCoordinates_amended_witness :
    getElementCoordinates ⟨"node", some 5, some 6, some ⟨some 7, some 8⟩, none⟩ =
      some ⟨some 5, some 6⟩ :=
  (getElementCoordinates_amended ⟨"node", some 5, some 6, some ⟨some 7, some 8⟩, none⟩).1 rfl

/-- C9: for any element of type `node`, `getElementCoordinates` returns
a non-null coordinate object even when the element carries no `lat` or
`lon` fields; the absence signal `null` is returned exactly for
elements that are not nodes and have no `center` property. -/
theorem getElementCoordinates_node_total (e : OSMElement) :
    (e.type = "node" → getElementCoordinates e = some ⟨e.lat, e.lon⟩) ∧
    (getElementCoordinates e = none ↔ e.type ≠ "node" ∧ e.center = none) := by
  constructor
  · intro h; simp [getElementCoordinates, h]
  · unfold getElementCoordinates
    by_cases h : e.type = "node"
    · simp [h]
    · cases hc : e.center <;> simp [h, hc]

/-- Witness for C9: a bare node with neither `lat` nor `lon` still
yields a (degenerate) coordinate object rather than `null`. -/
theorem getElementCoordinates_node_total_witness :
    getElementCoordinates ⟨"node", none, none, none, none⟩ = some ⟨none, none⟩ :=
  (getElementCoordinates_node_total ⟨"node", none, none, none, none⟩).1 rfl

/-- C8: under the default filter state, the lookup for the `sandwich`
type is absent hence falsy, so every element classifying as `sandwich`
is excluded from the filtered result set that `fetchCoffeeLocations`
returns and caches. -/
theorem sandwich_excluded (e : OSMElement) (elems : List OSMElement)
    (h : (getLocationType (elementTags e)).type = "sandwich") :
    filterLookup filterState "sandwich" = false ∧
    e ∉ filterElements filterState elems := by
  refine ⟨rfl, fun hmem => ?_⟩
  have hkeep : keepElement filterState e = true :=
    (List.mem_filter.mp hmem).2
  unfold keepElement at hkeep
  cases hco : getElementCoordinates e with
  | none => rw [hco] at hkeep; exact Bool.noConfusion hkeep
  | some c =>
    rw [hco, h] at hkeep
    exact Bool.noConfusion hkeep

/-- Witness for C8: a concrete fast-food/sandwich element is dropped by
the filtering step even though its coordinates resolve. -/
theorem sandwich_excluded_witness :
    (⟨"node", some 1, some 2, none, some ⟨none, none, some "fast_food", some "sandwich"⟩⟩ :
        OSMElement) ∉
      filterElements filterState
        [⟨"node", some 1, some 2, none, some ⟨none, none, some "fast_food", some "sandwich"⟩⟩] :=
  (sandwich_excluded
    ⟨"node", some 1, some 2, none, some ⟨none, none, some "fast_food", some "sandwich"⟩⟩
    [⟨"node", some 1, some 2, none, some ⟨none, none, some "fast_food", some "sandwich"⟩⟩]
    (by decide)).2

/-- A Leaflet bounds object, read only through its four coordinate
accessors `getSouth`/`getWest`/`getNorth`/`getEast`. -/
structure Bounds where
  south : ℚ
  west : ℚ
  north : ℚ
  east : ℚ
deriving DecidableEq

/-- Left-pads the fractional part of a 3-decimal fixed-point rendering
to exactly three digits. -/
def pad3 (m : ℕ) : String :=
  if m < 10 then "00" ++ toString m
  else if m < 100 then "0" ++ toString m
  else toString m

/-- Renders `n` thousandths in fixed-point notation with exactly three
decimal places. -/
def natFixed3 (n : ℕ) : String :=
  toString (n / 1000) ++ "." ++ pad3 (n % 1000)

/-- The JS `Number.prototype.toFixed(3)` on the modelled numeric value:
negative inputs render as `-` followed by the rendering of the negated
value; otherwise the value is scaled by `10^3` and rounded to the
nearest integer, half-way cases to the larger integer (ECMA-262
`Number.prototype.toFixed`). -/
def jsToFixed3 (q : ℚ) : String :=
  if q < 0 then "-" ++ natFixed3 (Int.toNat ⌊-q * 1000 + 1 / 2⌋)
  else natFixed3 (Int.toNat ⌊q * 1000 + 1 / 2⌋)

/-- The default JS `Array.prototype.sort()` on the collected filter
names: a stable sort by string order, modelled as insertion sort. -/
def sortStrings (l : List String) : List String :=
  List.insertionSort (· ≤ ·) l

/-- `getCacheKey` from `js/cache.js`: the four bounds rounded via
`toFixed(3)` joined as `south,west,north,east`, a `|` separator, then
the sorted comma-joined names of the enabled filters. -/
def getCacheKey (bounds : Bounds) (filters : FilterState) : String :=
  jsToFixed3 bounds.south ++ "," ++ jsToFixed3 bounds.west ++ "," ++
    jsToFixed3 bounds.north ++ "," ++ jsToFixed3 bounds.east ++ "|" ++
    String.intercalate ","
      (sortStrings ((filters.filter fun kv => kv.2).map fun kv => kv.1))

/-- A cache entry: the cached (already filtered) data and its insertion
timestamp (`Date.now()` reading, in milliseconds). -/
structure CacheEntry where
  data : List OSMElement
  timestamp : ℕ
deriving DecidableEq

/-- The module-level `Map` of `js/cache.js`, as an association list in
insertion order. -/
abbrev Cache := List (String × CacheEntry)

/-- `isEntryValid` from `js/cache.js`: an entry is valid while its age
`now - entry.timestamp` is strictly below `CONFIG.CACHE_TTL`. -/
def isEntryValid (now : ℕ) (entry : CacheEntry) : Bool :=
  (now : ℤ) - (entry.timestamp : ℤ) < CACHE_TTL

/-- `Map.prototype.get`: the entry stored under `key`, if any. -/
def lookupEntry (key : String) (c : Cache) : Option CacheEntry :=
  match c.find? (fun kv => kv.1 == key) with
  | some kv => some kv.2
  | none => none

/-- `Map.prototype.delete key`: removes the entry stored under `key`. -/
def deleteKey (key : String) (c : Cache) : Cache :=
  c.filter (fun kv => !(kv.1 == key))

/-- `getFromCache` from `js/cache.js`, with the implicit `Date.now()`
reading and the mutated map made explicit: returns the cached data when
a valid entry exists; deletes the entry and signals absence when it has
expired; signals absence on an unknown key. -/
def getFromCache (key : String) (now : ℕ) (c : Cache) :
    Option (List OSMElement) × Cache :=
  match lookupEntry key c with
  | none => (none, c)
  | some entry =>
    if isEntryValid now entry then (some entry.data, c)
    else (none, deleteKey key c)

/-- `Map.prototype.set`: overwrites an existing key in place (keeping
its position in insertion order) or appends a new one. -/
def mapSet (key : String) (entry : CacheEntry) : Cache → Cache
  | [] => [(key, entry)]
  | kv :: rest =>
    if kv.1 == key then (key, entry) :: rest else kv :: mapSet key entry rest

/-- The `entries.sort((a, b) => a[1].timestamp - b[1].timestamp)` of
`cleanupCache`: a stable ascending sort by timestamp. -/
def sortByTimestamp (l : List (String × CacheEntry)) : List (String × CacheEntry) :=
  List.insertionSort (fun a b => a.2.timestamp ≤ b.2.timestamp) l

/-- `cleanupCache` from `js/cache.js`: drop every TTL-expired entry;
if the map still holds more than `CONFIG.CACHE_MAX_SIZE` entries,
delete the keys of the `size - CACHE_MAX_SIZE` entries with the
earliest timestamps. -/
def cleanupCache (now : ℕ) (c : Cache) : Cache :=
  let live := c.filter (fun kv => isEntryValid now kv.2)
  if CACHE_MAX_SIZE < live.length then
    let removedKeys :=
      ((sortByTimestamp live).take (live.length - CACHE_MAX_SIZE)).map fun kv => kv.1
    live.filter (fun kv => !(removedKeys.contains kv.1))
  else live

/-- `setCache` from `js/cache.js`: store the entry with a fresh
timestamp, then run the cleanup pass. -/
def setCache (key : String) (data : List OSMElement) (now : ℕ) (c : Cache) : Cache :=
  cleanupCache now (mapSet key ⟨data, now⟩ c)

/-- The size-eviction pass at the end of `cleanupCache`: when the map
still holds more than `CACHE_MAX_SIZE` entries, delete the keys of the
`size - CACHE_MAX_SIZE` entries with the earliest timestamps. -/
def evictOldest (live : Cache) : Cache :=
  if CACHE_MAX_SIZE < live.length then
    live.filter fun kv =>
      !((((sortByTimestamp live).take (live.length - CACHE_MAX_SIZE)).map
          Prod.fst).contains kv.1)
  else live

/-- Splitting a list by a boolean predicate preserves its length. -/
theorem filter_not_length {α : Type} (l : List α) (p : α → Bool) :
    (l.filter fun a => !(p a)).length + l.countP p = l.length := by
  induction l with
  | nil => simp
  | cons a t ih =>
    by_cases h : p a <;> simp [List.filter_cons, List.countP_cons, h] <;> omega

/-- `List.contains` agrees with membership on strings. -/
theorem contains_of_mem {l : List String} {x : String} (h : x ∈ l) :
    l.contains x = true :=
  List.contains_iff_exists_mem_beq.mpr ⟨x, h, by simp⟩

/-- Membership follows from a positive `List.contains` on strings. -/
theorem mem_of_contains {l : List String} {x : String} (h : l.contains x = true) :
    x ∈ l := by
  obtain ⟨b, hb, hx⟩ := List.contains_iff_exists_mem_beq.mp h
  rwa [show x = b by simpa using hx]

/-- Every element of the eviction result is an entry of the input. -/
theorem evictOldest_subset (live : Cache) :
    ∀ kv ∈ evictOldest live, kv ∈ live := by
  intro kv h
  unfold evictOldest at h
  by_cases hc : CACHE_MAX_SIZE < live.length
  · rw [if_pos hc] at h; exact (List.mem_filter.mp h).1
  · rwa [if_neg hc] at h

/-- The eviction pass leaves at most `CACHE_MAX_SIZE` entries. -/
theorem evictOldest_le (live : Cache) :
    (evictOldest live).length ≤ CACHE_MAX_SIZE := by
  unfold evictOldest
  by_cases hc : CACHE_MAX_SIZE < live.length
  · rw [if_pos hc]
    have hperm : (sortByTimestamp live).Perm live := List.perm_insertionSort _ _
    have hlen : (sortByTimestamp live).length = live.length := hperm.length_eq
    have htakelen :
        ((sortByTimestamp live).take (live.length - CACHE_MAX_SIZE)).length =
          live.length - CACHE_MAX_SIZE := by
      rw [List.length_take]; omega
    have hall : ∀ kv ∈ (sortByTimestamp live).take (live.length - CACHE_MAX_SIZE),
        ((((sortByTimestamp live).take (live.length - CACHE_MAX_SIZE)).map
          Prod.fst).contains kv.1) = true := by
      intro kv hkv
      exact contains_of_mem (List.mem_map_of_mem Prod.fst hkv)
    have hcount_take :
        ((sortByTimestamp live).take (live.length - CACHE_MAX_SIZE)).countP
          (fun kv => (((sortByTimestamp live).take (live.length - CACHE_MAX_SIZE)).map
            Prod.fst).contains kv.1) = live.length - CACHE_MAX_SIZE := by
      rw [List.countP_eq_length_filter, List.filter_eq_self.mpr hall, htakelen]
    have hsplit := List.take_append_drop (live.length - CACHE_MAX_SIZE) (sortByTimestamp live)
    have hcount_sorted :
        live.length - CACHE_MAX_SIZE ≤ (sortByTimestamp live).countP
          (fun kv => (((sortByTimestamp live).take (live.length - CACHE_MAX_SIZE)).map
            Prod.fst).contains kv.1) := by
      have hcongr := congrArg (List.countP
        (fun kv => (((sortByTimestamp live).take (live.length - CACHE_MAX_SIZE)).map
          Prod.fst).contains kv.1)) hsplit
      rw [List.countP_append, hcount_take] at hcongr
      omega
    have hcount_live :
        live.length - CACHE_MAX_SIZE ≤ live.countP
          (fun kv => (((sortByTimestamp live).take (live.length - CACHE_MAX_SIZE)).map
            Prod.fst).contains kv.1) := by
      rw [← hperm.countP_eq]
      exact hcount_sorted
    have := filter_not_length live
      (fun kv => (((sortByTimestamp live).take (live.length - CACHE_MAX_SIZE)).map
        Prod.fst).contains kv.1)
    omega
  · rw [if_neg hc]; omega

/-- In a list whose keys are pairwise distinct, equal keys force equal
entries. -/
theorem keys_nodup_inj (l : Cache) (h : (l.map Prod.fst).Nodup)
    (a b : String × CacheEntry) (ha : a ∈ l) (hb : b ∈ l) (hab : a.1 = b.1) :
    a = b := by
  induction l with
  | nil => cases ha
  | cons kv rest ih =>
    simp only [List.map_cons, List.nodup_cons] at h
    rcases List.mem_cons.mp ha with rfl | ha' <;> rcases List.mem_cons.mp hb with rfl | hb'
    · rfl
    · exact absurd (by rw [hab]; exact List.mem_map_of_mem Prod.fst hb') h.1
    · exact absurd (by rw [← hab]; exact List.mem_map_of_mem Prod.fst ha') h.1
    · exact ih h.2 ha' hb'

/-- Any valid entry dropped by the eviction pass is no younger than any
surviving entry, provided keys are pairwise distinct. -/
theorem evictOldest_order (live : Cache) (hnd : (live.map Prod.fst).Nodup) :
    ∀ kv ∈ evictOldest live, ∀ kv' ∈ live, kv' ∉ evictOldest live →
      kv'.2.timestamp ≤ kv.2.timestamp := by
  haveI hTot : IsTotal (String × CacheEntry)
      (fun a b => a.2.timestamp ≤ b.2.timestamp) := ⟨fun a b => Nat.le_total _ _⟩
  haveI hTrans : IsTrans (String × CacheEntry)
      (fun a b => a.2.timestamp ≤ b.2.timestamp) := ⟨fun _ _ _ => Nat.le_trans⟩
  intro kv hkv kv' hkv' hnot
  unfold evictOldest at hkv hnot
  by_cases hc : CACHE_MAX_SIZE < live.length
  · rw [if_pos hc] at hkv hnot
    have hperm : (sortByTimestamp live).Perm live := List.perm_insertionSort _ _
    have hkv_live : kv ∈ live := (List.mem_filter.mp hkv).1
    have hkv_notrm : kv.1 ∉ ((sortByTimestamp live).take
        (live.length - CACHE_MAX_SIZE)).map Prod.fst := by
      have h2 : (!((((sortByTimestamp live).take (live.length - CACHE_MAX_SIZE)).map
          Prod.fst).contains kv.1)) = true := (List.mem_filter.mp hkv).2
      intro hx
      rw [contains_of_mem hx] at h2
      exact Bool.noConfusion h2
    have hnd_sorted : ((sortByTimestamp live).map Prod.fst).Nodup :=
      ((hperm.map Prod.fst).nodup_iff).mpr hnd
    have hkv'_rm : kv'.1 ∈ ((sortByTimestamp live).take
        (live.length - CACHE_MAX_SIZE)).map Prod.fst := by
      by_contra hx
      apply hnot
      refine List.mem_filter.mpr ⟨hkv', ?_⟩
      have hfalse : (((sortByTimestamp live).take (live.length - CACHE_MAX_SIZE)).map
          Prod.fst).contains kv'.1 = false := by
        cases hc2 : (((sortByTimestamp live).take (live.length - CACHE_MAX_SIZE)).map
            Prod.fst).contains kv'.1
        · rfl
        · exact absurd (mem_of_contains hc2) hx
      show (!((((sortByTimestamp live).take (live.length - CACHE_MAX_SIZE)).map
        Prod.fst).contains kv'.1)) = true
      rw [hfalse]
      rfl
    obtain ⟨kw, hkw_take, hkw_eq⟩ := List.mem_map.mp hkv'_rm
    have hkw_sorted : kw ∈ sortByTimestamp live := List.mem_of_mem_take hkw_take
    have hkv'_sorted : kv' ∈ sortByTimestamp live := hperm.mem_iff.mpr hkv'
    have hkw_kv' : kw = kv' :=
      keys_nodup_inj (sortByTimestamp live) hnd_sorted kw kv' hkw_sorted hkv'_sorted hkw_eq
    have hkv'_take : kv' ∈ (sortByTimestamp live).take (live.length - CACHE_MAX_SIZE) :=
      hkw_kv' ▸ hkw_take
    have hkv_sorted : kv ∈ sortByTimestamp live := hperm.mem_iff.mpr hkv_live
    have hkv_drop : kv ∈ (sortByTimestamp live).drop (live.length - CACHE_MAX_SIZE) := by
      have hsplit := List.take_append_drop (live.length - CACHE_MAX_SIZE)
        (sortByTimestamp live)
      have : kv ∈ (sortByTimestamp live).take (live.length - CACHE_MAX_SIZE) ++
          (sortByTimestamp live).drop (live.length - CACHE_MAX_SIZE) := by
        rw [hsplit]; exact hkv_sorted
      rcases List.mem_append.mp this with h1 | h2
      · exact absurd (List.mem_map_of_mem Prod.fst h1) hkv_notrm
      · exact h2
    have hsorted : List.Sorted (fun a b => a.2.timestamp ≤ b.2.timestamp)
        (sortByTimestamp live) := List.sorted_insertionSort _ _
    exact hsorted.rel_of_mem_take_of_mem_drop hkv'_take hkv_drop
  · rw [if_neg hc] at hnot
    exact absurd hkv' hnot

/-- Keys added by `mapSet` are the stored key or existing keys. -/
theorem mapSet_keys_sub (key : String) (e : CacheEntry) (c : Cache) :
    ∀ x, x ∈ (mapSet key e c).map Prod.fst → x = key ∨ x ∈ c.map Prod.fst := by
  induction c with
  | nil => intro x hx; simp [mapSet] at hx; exact Or.inl hx
  | cons kv rest ih =>
    intro x hx
    by_cases h : kv.1 == key
    · rw [show mapSet key e (kv :: rest) = (key, e) :: rest from by
        simp [mapSet, h]] at hx
      simp only [List.map_cons, List.mem_cons] at hx
      rcases hx with rfl | h2
      · exact Or.inl rfl
      · exact Or.inr (by simp only [List.map_cons, List.mem_cons]; exact Or.inr h2)
    · rw [show mapSet key e (kv :: rest) = kv :: mapSet key e rest from by
        simp [mapSet, h]] at hx
      simp only [List.map_cons, List.mem_cons] at hx
      rcases hx with rfl | h2
      · exact Or.inr (by rw [List.map_cons]; exact List.mem_cons_self _ _)
      · rcases ih x h2 with h1 | h3
        · exact Or.inl h1
        · exact Or.inr (by simp only [List.map_cons, List.mem_cons]; exact Or.inr h3)

/-- `mapSet` preserves pairwise-distinct keys. -/
theorem mapSet_keysNodup (key : String) (e : CacheEntry) (c : Cache)
    (h : (c.map Prod.fst).Nodup) : ((mapSet key e c).map Prod.fst).Nodup := by
  induction c with
  | nil => simp [mapSet]
  | cons kv rest ih =>
    simp only [List.map_cons, List.nodup_cons] at h
    by_cases hk : kv.1 == key
    · have hkey : kv.1 = key := by simpa using hk
      rw [show mapSet key e (kv :: rest) = (key, e) :: rest from by simp [mapSet, hk]]
      simp only [List.map_cons, List.nodup_cons]
      exact ⟨hkey ▸ h.1, h.2⟩
    · rw [show mapSet key e (kv :: rest) = kv :: mapSet key e rest from by
        simp [mapSet, hk]]
      simp only [List.map_cons, List.nodup_cons]
      refine ⟨fun hx => ?_, ih h.2⟩
      rcases mapSet_keys_sub key e rest kv.1 hx with h1 | h2
      · exact hk (by simp [h1])
      · exact h.1 h2

/-- C2: after every `setCache`, the cache holds at most
`CONFIG.CACHE_MAX_SIZE` entries; every surviving entry is within TTL
(all expired entries were purged first); and, when the keys of the
incoming cache are distinct (an invariant of the JS `Map`), any valid
entry evicted by the size bound has a timestamp no later than any
surviving entry — entries are removed in ascending timestamp order. -/
theorem setCache_bounded (key : String) (data : List OSMElement) (now : ℕ) (c : Cache) :
    (setCache key data now c).length ≤ CACHE_MAX_SIZE ∧
    (∀ kv ∈ setCache key data now c, isEntryValid now kv.2 = true) ∧
    ((c.map Prod.fst).Nodup →
      ∀ kv ∈ setCache key data now c,
      ∀ kv' ∈ mapSet key ⟨data, now⟩ c,
        isEntryValid now kv'.2 = true → kv' ∉ setCache key data now c →
        kv'.2.timestamp ≤ kv.2.timestamp) := by
  have hdef : setCache key data now c =
      evictOldest ((mapSet key ⟨data, now⟩ c).filter fun kv => isEntryValid now kv.2) := rfl
  refine ⟨?_, ?_, ?_⟩
  · rw [hdef]; exact evictOldest_le _
  · intro kv hkv
    rw [hdef] at hkv
    exact (List.mem_filter.mp (evictOldest_subset _ kv hkv)).2
  · intro hnd kv hkv kv' hkv' hvalid hnot
    rw [hdef] at hkv hnot
    have hnd' : (((mapSet key ⟨data, now⟩ c).filter fun kv =>
        isEntryValid now kv.2).map Prod.fst).Nodup :=
      ((List.filter_sublist _).map Prod.fst).nodup (mapSet_keysNodup key ⟨data, now⟩ c hnd)
    exact evictOldest_order _ hnd' kv hkv kv'
      (List.mem_filter.mpr ⟨hkv', hvalid⟩) hnot

/-- Witness for C2: inserting a fifty-first fresh entry into a cache of
fifty valid entries evicts exactly the earliest-stamped one, keeping
the count at the bound; the evicted entry is older than a survivor. -/
theorem setCache_bounded_witness :
    (setCache "new" [] 100 ((List.range 50).map fun i =>
        (toString i, ⟨[], i⟩))).length ≤ CACHE_MAX_SIZE ∧
    ("0", (⟨[], 0⟩ : CacheEntry)).2.timestamp ≤ ("1", (⟨[], 1⟩ : CacheEntry)).2.timestamp := by
  constructor
  · exact (setCache_bounded "new" [] 100 ((List.range 50).map fun i =>
      (toString i, ⟨[], i⟩))).1
  · exact (setCache_bounded "new" [] 100 ((List.range 50).map fun i =>
      (toString i, ⟨[], i⟩))).2.2 (by decide) ("1", ⟨[], 1⟩) (by decide)
      ("0", ⟨[], 0⟩) (by decide) (by decide) (by decide)

/-- The cache key derivation as worded by the spec: round each of the
four bounding coordinates to 3 decimal places in fixed-point notation
and join them as `south,west,north,east`; separately collect the names
of the enabled filters, sort them lexicographically and join them with
commas; concatenate the two parts with a `|` separator. -/
def specDescribedCacheKey (bounds : Bounds) (filters : FilterState) : String :=
  String.intercalate ","
      [jsToFixed3 bounds.south, jsToFixed3 bounds.west,
       jsToFixed3 bounds.north, jsToFixed3 bounds.east] ++
    "|" ++
    String.intercalate ","
      (sortStrings ((filters.filter fun kv => kv.2).map fun kv => kv.1))

/-- C3: `getCacheKey` produces exactly the spec-described key — the
four coordinates rounded to 3 decimals in fixed-point notation joined
as `south,west,north,east`, a `|` separator, and the sorted
comma-joined enabled filter names; in particular a bound of
`48.856612345` rounds to `48.857` and the resulting key starts with
that substring. -/
theorem getCacheKey_spec :
    (∀ bounds filters, getCacheKey bounds filters = specDescribedCacheKey bounds filters) ∧
    jsToFixed3 (48.856612345 : ℚ) = "48.857" ∧
    String.isPrefixOf "48.857"
      (getCacheKey ⟨48.856612345, 2.352298765, 48.866612345, 2.362298765⟩ filterState) = true ∧
    getCacheKey ⟨48.856612345, 2.3522, 48.9, 2.4⟩
        [("roastery", true), ("cafe", true), ("shop", false)] =
      "48.857,2.352,48.900,2.400|cafe,roastery" := by
  refine ⟨fun bounds filters => rfl, ?_, ?_, ?_⟩ <;> with_unfolding_all rfl

/-- C4: `getFromCache` returns the stored data exactly when an entry
exists whose age `now - timestamp` is below `CONFIG.CACHE_TTL`; an
expired entry is deleted as a side effect and absence is signalled; an
unknown key signals absence with the cache untouched (no exception). -/
theorem getFromCache_spec (key : String) (now : ℕ) (c : Cache) :
    ((getFromCache key now c).1 ≠ none ↔
      ∃ entry, lookupEntry key c = some entry ∧
        (now : ℤ) - (entry.timestamp : ℤ) < CACHE_TTL) ∧
    (∀ entry, lookupEntry key c = some entry → isEntryValid now entry = true →
      getFromCache key now c = (some entry.data, c)) ∧
    (∀ entry, lookupEntry key c = some entry → isEntryValid now entry = false →
      getFromCache key now c = (none, deleteKey key c)) ∧
    (lookupEntry key c = none → getFromCache key now c = (none, c)) := by
  refine ⟨?_, ?_, ?_, ?_⟩
  · unfold getFromCache
    cases h : lookupEntry key c with
    | none => simp [h]
    | some entry =>
      by_cases hv : isEntryValid now entry = true
      · simp only [hv, if_true]
        constructor
        · intro _
          exact ⟨entry, rfl, by simpa [isEntryValid] using hv⟩
        · intro _; simp
      · rw [Bool.not_eq_true] at hv
        simp only [hv, Bool.false_eq_true, if_false]
        constructor
        · intro hne; exact absurd rfl hne
        · rintro ⟨e, he, hlt⟩
          rw [Option.some_inj] at he
          subst he
          rw [show isEntryValid now entry = true by
            simpa [isEntryValid] using hlt] at hv
          exact Bool.noConfusion hv
  · intro entry he hv; unfold getFromCache; rw [he]; simp [hv]
  · intro entry he hv; unfold getFromCache; rw [he]; simp [hv]
  · intro he; unfold getFromCache; rw [he]

/-- Witness for C4: a fresh entry is returned as stored; afterwards the
same lookup far past the TTL signals absence and deletes the entry. -/
theorem getFromCache_spec_witness :
    getFromCache "k" 5 [("k", ⟨[], 0⟩)] = (some [], [("k", ⟨[], 0⟩)]) ∧
    getFromCache "k" 700000 [("k", ⟨[], 0⟩)] = (none, []) := by
  constructor
  · exact (getFromCache_spec "k" 5 [("k", ⟨[], 0⟩)]).2.1 ⟨[], 0⟩ (by decide) (by decide)
  · exact (getFromCache_spec "k" 700000 [("k", ⟨[], 0⟩)]).2.2.1 ⟨[], 0⟩ (by decide) (by decide)

/-- Sorting is invariant under permutation of the input: both sides
sort to the unique ascending arrangement of the same multiset. -/
theorem sortStrings_perm (l1 l2 : List String) (h : l1.Perm l2) :
    sortStrings l1 = sortStrings l2 := by
  unfold sortStrings
  exact List.eq_of_perm_of_sorted
    (r := (· ≤ · : String → String → Prop))
    (((List.perm_insertionSort _ _).trans h).trans
      (List.perm_insertionSort _ _).symm)
    (List.sorted_insertionSort _ _) (List.sorted_insertionSort _ _)

/-- C7: `getCacheKey` is deterministic and order-independent — two
filter objects holding the same entries in different property-insertion
orders produce the identical key string for the same bounds. -/
theorem getCacheKey_orderIndependent (bounds : Bounds) (f1 f2 : FilterState)
    (h : f1.Perm f2) :
    getCacheKey bounds f1 = getCacheKey bounds f2 := by
  unfold getCacheKey
  have hperm : ((f1.filter fun kv => kv.2).map fun kv => kv.1).Perm
      ((f2.filter fun kv => kv.2).map fun kv => kv.1) :=
    (h.filter fun kv => kv.2).map fun kv => kv.1
  rw [sortStrings_perm _ _ hperm]

/-- Witness for C7: two concrete permuted filter objects yield the same
key. -/
theorem getCacheKey_orderIndependent_witness :
    getCacheKey ⟨0, 0, 0, 0⟩ [("shop", true), ("cafe", true), ("roastery", false)] =
      getCacheKey ⟨0, 0, 0, 0⟩ [("cafe", true), ("roastery", false), ("shop", true)] :=
  getCacheKey_orderIndependent ⟨0, 0, 0, 0⟩
    [("shop", true), ("cafe", true), ("roastery", false)]
    [("cafe", true), ("roastery", false), ("shop", true)] (by decide)

/-- How one invocation of `fetchCoffeeLocations` settles: its promise
fulfils with data, rejects with an `AbortError`, or rejects with any
other error (HTTP failure, network failure, malformed payload). -/
inductive Outcome where
  | fulfilled (data : List OSMElement)
  | rejectedAbort
  | rejectedError
deriving DecidableEq

/-- The program counter of one invocation of `fetchCoffeeLocations`:
suspended at `await fetch` with its own controller id, suspended at
`await response.json()`, or settled. An invocation that returned a
cache hit is settled from birth. -/
inductive PStat where
  | pendingFetch (cid : ℕ) (key : String)
  | pendingJson (cid : ℕ) (key : String)
  | completed (out : Outcome)
deriving DecidableEq

/-- The global mutable state of `js/api.js` and `js/cache.js` together
with the set of started invocations: `slot` is `currentAbortController`
(by controller id), `aborted` the ids whose controllers have had
`abort()` called, `nextId` a fresh-id counter, `cache` the module map,
`now` the clock, `procs` the state of every invocation issued so far. -/
structure SysState where
  slot : Option ℕ
  aborted : List ℕ
  nextId : ℕ
  cache : Cache
  now : ℕ
  procs : List PStat
deriving DecidableEq

/-- The `finally` clause of `fetchCoffeeLocations`: clear
`currentAbortController` only when it still holds this invocation's own
controller. -/
def finalizeSlot (slot : Option ℕ) (cid : ℕ) : Option ℕ :=
  if slot = some cid then none else slot

/-- The cancellation prologue of `fetchCoffeeLocations`: abort the
current controller, if any. -/
def abortCurrent (slot : Option ℕ) (aborted : List ℕ) : List ℕ :=
  match slot with
  | some c => c :: aborted
  | none => aborted

/-- Observable events of the coordinator: an invocation completing
synchronously from cache, an invocation going in flight with a fresh
controller, its fetch resolving, the timeout timer firing, time
passing, and an invocation settling (`stored` records whether the
settling ran `setCache`). -/
inductive Label where
  | callHit (p : ℕ) (data : List OSMElement)
  | callMiss (p : ℕ) (cid : ℕ)
  | fetchOk (p : ℕ) (cid : ℕ)
  | timerFired (p : ℕ) (cid : ℕ)
  | tick (d : ℕ)
  | complete (p : ℕ) (cid : ℕ) (out : Outcome) (stored : Bool)
deriving DecidableEq

/-- Small-step semantics of `fetchCoffeeLocations`. A call runs its
synchronous prologue atomically (abort the previous controller, consult
the cache, and on a miss install a fresh controller and suspend at
`await fetch`). A fetch suspended on an already-aborted controller can
only reject with `AbortError`; a non-aborted fetch may resolve, fail,
or be aborted later by the timer or by a newer call. Both `json()`
outcomes and the success path storing through `setCache` run the
`finally` clause. The filter state is read afresh (nondeterministically)
at call time and at response-processing time, as the JS globals are. -/
inductive Step : SysState → Label → SysState → Prop where
  | call_hit (s : SysState) (bounds : Bounds) (fs : FilterState)
      (data : List OSMElement) (c' : Cache)
      (hget : getFromCache (getCacheKey bounds fs) s.now s.cache = (some data, c')) :
      Step s (.callHit s.procs.length data)
        ⟨s.slot, abortCurrent s.slot s.aborted, s.nextId, c', s.now,
          s.procs ++ [.completed (.fulfilled data)]⟩
  | call_miss (s : SysState) (bounds : Bounds) (fs : FilterState) (c' : Cache)
      (hget : getFromCache (getCacheKey bounds fs) s.now s.cache = (none, c')) :
      Step s (.callMiss s.procs.length s.nextId)
        ⟨some s.nextId, abortCurrent s.slot s.aborted, s.nextId + 1, c', s.now,
          s.procs ++ [.pendingFetch s.nextId (getCacheKey bounds fs)]⟩
  | fetch_abort (s : SysState) (p cid : ℕ) (key : String)
      (hp : s.procs[p]? = some (.pendingFetch cid key))
      (hab : cid ∈ s.aborted) :
      Step s (.complete p cid .rejectedAbort false)
        ⟨finalizeSlot s.slot cid, s.aborted, s.nextId, s.cache, s.now,
          s.procs.set p (.completed .rejectedAbort)⟩
  | fetch_error (s : SysState) (p cid : ℕ) (key : String)
      (hp : s.procs[p]? = some (.pendingFetch cid key))
      (hab : cid ∉ s.aborted) :
      Step s (.complete p cid .rejectedError false)
        ⟨finalizeSlot s.slot cid, s.aborted, s.nextId, s.cache, s.now,
          s.procs.set p (.completed .rejectedError)⟩
  | fetch_ok (s : SysState) (p cid : ℕ) (key : String)
      (hp : s.procs[p]? = some (.pendingFetch cid key))
      (hab : cid ∉ s.aborted) :
      Step s (.fetchOk p cid)
        ⟨s.slot, s.aborted, s.nextId, s.cache, s.now,
          s.procs.set p (.pendingJson cid key)⟩
  | json_abort (s : SysState) (p cid : ℕ) (key : String)
      (hp : s.procs[p]? = some (.pendingJson cid key))
      (hab : cid ∈ s.aborted) :
      Step s (.complete p cid .rejectedAbort false)
        ⟨finalizeSlot s.slot cid, s.aborted, s.nextId, s.cache, s.now,
          s.procs.set p (.completed .rejectedAbort)⟩
  | json_error (s : SysState) (p cid : ℕ) (key : String)
      (hp : s.procs[p]? = some (.pendingJson cid key)) :
      Step s (.complete p cid .rejectedError false)
        ⟨finalizeSlot s.slot cid, s.aborted, s.nextId, s.cache, s.now,
          s.procs.set p (.completed .rejectedError)⟩
  | json_ok (s : SysState) (p cid : ℕ) (key : String)
      (elems : List OSMElement) (fs : FilterState)
      (hp : s.procs[p]? = some (.pendingJson cid key)) :
      Step s (.complete p cid (.fulfilled (filterElements fs elems)) true)
        ⟨finalizeSlot s.slot cid, s.aborted, s.nextId,
          setCache key (filterElements fs elems) s.now s.cache, s.now,
          s.procs.set p (.completed (.fulfilled (filterElements fs elems)))⟩
  | timer_fired (s : SysState) (p cid : ℕ) (key : String)
      (hp : s.procs[p]? = some (.pendingFetch cid key)) :
      Step s (.timerFired p cid)
        ⟨s.slot, cid :: s.aborted, s.nextId, s.cache, s.now, s.procs⟩
  | tick_step (s : SysState) (d : ℕ) :
      Step s (.tick d)
        ⟨s.slot, s.aborted, s.nextId, s.cache, s.now + d, s.procs⟩

/-- A finite labelled execution. -/
inductive Traces : SysState → List Label → SysState → Prop where
  | refl (s : SysState) : Traces s [] s
  | cons (s s' s'' : SysState) (l : Label) (ls : List Label) :
      Step s l s' → Traces s' ls s'' → Traces s (l :: ls) s''

/-- Module load: no controller, nothing aborted, empty cache, no
invocations. -/
def initState : SysState := ⟨none, [], 0, [], 0, []⟩

/-- States the coordinator can actually be in. -/
def Reachable (s : SysState) : Prop := ∃ ls, Traces initState ls s

/-- The controller id owned by a still-pending invocation. -/
def procCid : PStat → Option ℕ
  | .pendingFetch cid _ => some cid
  | .pendingJson cid _ => some cid
  | .completed _ => none

/-- Invocation `p` in the process list owns controller `cid`. -/
def CidIn (procs : List PStat) (p cid : ℕ) : Prop :=
  ∃ st, procs[p]? = some st ∧ procCid st = some cid

/-- Structural invariants of reachable coordinator states: pending
controller ids are below the fresh-id counter and pairwise distinct,
the slot only holds ids below the counter, and a pending invocation's
controller is either the current one or already aborted. -/
def WF (s : SysState) : Prop :=
  (∀ p cid, CidIn s.procs p cid → cid < s.nextId) ∧
  (∀ p q cid, p ≠ q → CidIn s.procs p cid → ¬CidIn s.procs q cid) ∧
  (∀ c, s.slot = some c → c < s.nextId) ∧
  (∀ p cid, CidIn s.procs p cid → s.slot = some cid ∨ cid ∈ s.aborted)

/-- An invocation whose controller was aborted while it was still
suspended at `await fetch`: it can only remain suspended or settle as
`rejectedAbort`. -/
def Doomed (p cid : ℕ) (s : SysState) : Prop :=
  cid ∈ s.aborted ∧
    ((∃ key, s.procs[p]? = some (.pendingFetch cid key)) ∨
      s.procs[p]? = some (.completed .rejectedAbort))

/-- Events by which invocation `p` either runs `setCache` or fulfils
its promise: a synchronous cache-hit completion, or a settling step
that stored or fulfilled. -/
def storesOrFulfills (p : ℕ) : Label → Prop
  | .callHit q _ => q = p
  | .complete q _ out st => q = p ∧ (st = true ∨ ∃ data, out = .fulfilled data)
  | _ => False

/-- Labels that issue a new `fetchCoffeeLocations` call. -/
def isCallStart : Label → Bool
  | .callHit _ _ => true
  | .callMiss _ _ => true
  | _ => false

/-- Aborting the current controller only grows the aborted set. -/
theorem mem_abortCurrent {slot : Option ℕ} {aborted : List ℕ} {x : ℕ}
    (h : x ∈ aborted) : x ∈ abortCurrent slot aborted := by
  cases slot with
  | none => exact h
  | some c => exact List.mem_cons_of_mem c h

/-- The aborted controller itself lands in the aborted set. -/
theorem self_mem_abortCurrent {aborted : List ℕ} {c : ℕ} :
    c ∈ abortCurrent (some c) aborted :=
  List.mem_cons_self c aborted

/-- A process index holding a state is within bounds. -/
theorem lt_length_of_getElem?_eq_some {procs : List PStat} {p : ℕ} {st : PStat}
    (h : procs[p]? = some st) : p < procs.length := by
  by_contra hlt
  rw [List.getElem?_eq_none (Nat.le_of_not_lt hlt)] at h
  cases h

/-- Ownership of a controller id in a process list extended by one new
invocation. -/
theorem cidIn_append {procs : List PStat} {st0 : PStat} {p cid : ℕ} :
    CidIn (procs ++ [st0]) p cid ↔
      CidIn procs p cid ∨ (p = procs.length ∧ procCid st0 = some cid) := by
  constructor
  · rintro ⟨st, hst, hcid⟩
    rcases Nat.lt_trichotomy p procs.length with hlt | heq | hgt
    · exact Or.inl ⟨st, by rwa [List.getElem?_append_left hlt] at hst, hcid⟩
    · subst heq
      rw [List.getElem?_concat_length] at hst
      obtain rfl : st0 = st := by injection hst
      exact Or.inr ⟨rfl, hcid⟩
    · exfalso
      rw [List.getElem?_eq_none (by simp; omega)] at hst
      cases hst
  · rintro (⟨st, hst, hcid⟩ | ⟨rfl, hcid⟩)
    · exact ⟨st, by
        rw [List.getElem?_append_left (lt_length_of_getElem?_eq_some hst)]
        exact hst, hcid⟩
    · exact ⟨st0, List.getElem?_concat_length procs st0, hcid⟩

/-- Ownership of a controller id after overwriting one process slot. -/
theorem cidIn_set {procs : List PStat} {p : ℕ} {st0 : PStat} {q cid : ℕ} :
    CidIn (procs.set p st0) q cid ↔
      (q ≠ p ∧ CidIn procs q cid) ∨
        (q = p ∧ p < procs.length ∧ procCid st0 = some cid) := by
  constructor
  · rintro ⟨st, hst, hcid⟩
    by_cases hq : q = p
    · subst hq
      have hlt : q < procs.length := by
        have := lt_length_of_getElem?_eq_some hst
        simpa using this
      rw [List.getElem?_set_self hlt] at hst
      obtain rfl : st0 = st := by injection hst
      exact Or.inr ⟨rfl, hlt, hcid⟩
    · rw [List.getElem?_set_ne (fun h => hq h.symm)] at hst
      exact Or.inl ⟨hq, st, hst, hcid⟩
  · rintro (⟨hq, st, hst, hcid⟩ | ⟨rfl, hlt, hcid⟩)
    · exact ⟨st, by rwa [List.getElem?_set_ne (fun h => hq h.symm)], hcid⟩
    · exact ⟨st0, List.getElem?_set_self hlt, hcid⟩

/-- Settling an invocation (through the `finally` clause) preserves the
structural invariants, whatever the cache becomes. -/
theorem wf_settle {s : SysState} {p cid : ℕ} {st : PStat} {out : Outcome}
    {cache' : Cache} (hwf : WF s) (hp : s.procs[p]? = some st)
    (hcid : procCid st = some cid) :
    WF ⟨finalizeSlot s.slot cid, s.aborted, s.nextId, cache', s.now,
      s.procs.set p (.completed out)⟩ := by
  obtain ⟨hlt, hinj, hslot, hpend⟩ := hwf
  have hpcid : CidIn s.procs p cid := ⟨st, hp, hcid⟩
  refine ⟨?_, ?_, ?_, ?_⟩
  · intro q c hc
    rcases cidIn_set.mp hc with ⟨_, hc⟩ | ⟨_, _, hc0⟩
    · exact hlt q c hc
    · cases hc0
  · intro q r c hqr hcq hcr
    rcases cidIn_set.mp hcq with ⟨_, hcq'⟩ | ⟨_, _, hc0⟩
    · rcases cidIn_set.mp hcr with ⟨_, hcr'⟩ | ⟨_, _, hc0⟩
      · exact hinj q r c hqr hcq' hcr'
      · cases hc0
    · cases hc0
  · intro c hc
    unfold finalizeSlot at hc
    by_cases hs : s.slot = some cid
    · rw [if_pos hs] at hc; cases hc
    · rw [if_neg hs] at hc; exact hslot c hc
  · intro q c hc
    rcases cidIn_set.mp hc with ⟨hqp, hcq⟩ | ⟨_, _, hc0⟩
    · rcases hpend q c hcq with h1 | h2
      · by_cases hccid : c = cid
        · subst hccid
          exact absurd hpcid (hinj q p c hqp hcq)
        · left
          show finalizeSlot s.slot cid = some c
          unfold finalizeSlot
          rw [h1, if_neg (by simp [hccid])]
      · exact Or.inr h2
    · cases hc0

/-- The fetch resolving (moving to the `json()` suspension) preserves
the structural invariants. -/
theorem wf_fetchok {s : SysState} {p cid : ℕ} {key : String} (hwf : WF s)
    (hp : s.procs[p]? = some (.pendingFetch cid key)) :
    WF ⟨s.slot, s.aborted, s.nextId, s.cache, s.now,
      s.procs.set p (.pendingJson cid key)⟩ := by
  obtain ⟨hlt, hinj, hslot, hpend⟩ := hwf
  have hpcid : CidIn s.procs p cid := ⟨_, hp, rfl⟩
  refine ⟨?_, ?_, hslot, ?_⟩
  · intro q c hc
    rcases cidIn_set.mp hc with ⟨_, hc⟩ | ⟨rfl, _, hc0⟩
    · exact hlt q c hc
    · obtain rfl : cid = c := by injection hc0
      exact hlt q cid hpcid
  · intro q r c hqr hcq hcr
    rcases cidIn_set.mp hcq with ⟨hqp, hcq'⟩ | ⟨rfl, _, hc0⟩
    · rcases cidIn_set.mp hcr with ⟨hrp, hcr'⟩ | ⟨rfl, _, hc0⟩
      · exact hinj q r c hqr hcq' hcr'
      · obtain rfl : cid = c := by injection hc0
        exact absurd hpcid (hinj q r cid hqr hcq')
    · obtain rfl : cid = c := by injection hc0
      rcases cidIn_set.mp hcr with ⟨hrp, hcr'⟩ | ⟨rfl, _, hc0'⟩
      · exact (hinj q r cid hqr hpcid) hcr'
      · exact hqr rfl
  · intro q c hc
    rcases cidIn_set.mp hc with ⟨_, hc⟩ | ⟨rfl, _, hc0⟩
    · exact hpend q c hc
    · obtain rfl : cid = c := by injection hc0
      exact hpend q cid hpcid

/-- Every step of the coordinator preserves the structural invariants. -/
theorem wf_step {s : SysState} {l : Label} {s' : SysState}
    (h : Step s l s') (hwf : WF s) : WF s' := by
  obtain ⟨hlt, hinj, hslot, hpend⟩ := hwf
  cases h with
  | call_hit bounds fs data c' hget =>
    refine ⟨?_, ?_, hslot, ?_⟩
    · intro p cid hc
      rcases cidIn_append.mp hc with hc | ⟨rfl, hcid⟩
      · exact hlt p cid hc
      · cases hcid
    · intro p q cid hpq hcp hcq
      rcases cidIn_append.mp hcp with hcp | ⟨rfl, hcid⟩
      · rcases cidIn_append.mp hcq with hcq | ⟨rfl, hcid⟩
        · exact hinj p q cid hpq hcp hcq
        · cases hcid
      · cases hcid
    · intro p cid hc
      rcases cidIn_append.mp hc with hc | ⟨rfl, hcid⟩
      · rcases hpend p cid hc with h1 | h2
        · exact Or.inl h1
        · exact Or.inr (mem_abortCurrent h2)
      · cases hcid
  | call_miss bounds fs c' hget =>
    refine ⟨?_, ?_, ?_, ?_⟩
    · intro p cid hc
      rcases cidIn_append.mp hc with hc | ⟨rfl, hcid⟩
      · exact Nat.lt_succ_of_lt (hlt p cid hc)
      · obtain rfl : s.nextId = cid := by injection hcid
        exact Nat.lt_succ_self _
    · intro p q cid hpq hcp hcq
      rcases cidIn_append.mp hcp with hcp | ⟨rfl, hcidp⟩
      · rcases cidIn_append.mp hcq with hcq | ⟨rfl, hcidq⟩
        · exact hinj p q cid hpq hcp hcq
        · obtain rfl : s.nextId = cid := by injection hcidq
          exact absurd (hlt p _ hcp) (Nat.lt_irrefl _)
      · rcases cidIn_append.mp hcq with hcq | ⟨rfl, hcidq⟩
        · obtain rfl : s.nextId = cid := by injection hcidp
          exact absurd (hlt q _ hcq) (Nat.lt_irrefl _)
        · exact hpq rfl
    · intro c hc
      obtain rfl : s.nextId = c := by injection hc
      exact Nat.lt_succ_self _
    · intro p cid hc
      rcases cidIn_append.mp hc with hc | ⟨rfl, hcid⟩
      · exact Or.inr (by
          rcases hpend p cid hc with h1 | h2
          · rw [h1]; exact self_mem_abortCurrent
          · exact mem_abortCurrent h2)
      · obtain rfl : s.nextId = cid := by injection hcid
        exact Or.inl rfl
  | fetch_abort p cid key hp hab =>
    exact wf_settle ⟨hlt, hinj, hslot, hpend⟩ hp rfl
  | fetch_error p cid key hp hab =>
    exact wf_settle ⟨hlt, hinj, hslot, hpend⟩ hp rfl
  | fetch_ok p cid key hp hab =>
    exact wf_fetchok ⟨hlt, hinj, hslot, hpend⟩ hp
  | json_abort p cid key hp hab =>
    exact wf_settle ⟨hlt, hinj, hslot, hpend⟩ hp rfl
  | json_error p cid key hp =>
    exact wf_settle ⟨hlt, hinj, hslot, hpend⟩ hp rfl
  | json_ok p cid key elems fs hp =>
    exact wf_settle ⟨hlt, hinj, hslot, hpend⟩ hp rfl
  | timer_fired p cid key hp =>
    exact ⟨hlt, hinj, hslot, fun q c hc =>
      (hpend q c hc).imp id (List.mem_cons_of_mem cid)⟩
  | tick_step d =>
    exact ⟨hlt, hinj, hslot, hpend⟩

/-- The initial state satisfies the structural invariants. -/
theorem wf_init : WF initState := by
  refine ⟨?_, ?_, ?_, ?_⟩
  · rintro p cid ⟨st, hst, _⟩; simp [initState] at hst
  · rintro p q cid _ ⟨st, hst, _⟩; simp [initState] at hst
  · intro c hc; cases hc
  · rintro p cid ⟨st, hst, _⟩; simp [initState] at hst

/-- The invariants hold along any execution from an invariant state. -/
theorem wf_traces {s0 : SysState} {ls : List Label} {s1 : SysState}
    (h : Traces s0 ls s1) : WF s0 → WF s1 := by
  induction h with
  | refl s => exact id
  | cons s s' s'' l ls hstep htr ih => exact fun h0 => ih (wf_step hstep h0)

/-- Every reachable state satisfies the structural invariants. -/
theorem wf_reachable {s : SysState} (h : Reachable s) : WF s := by
  obtain ⟨ls, htr⟩ := h
  exact wf_traces htr wf_init

/-- One step preserves doom: an invocation aborted while suspended at
`await fetch` stays suspended or settles as `rejectedAbort`, and the
step neither runs its `setCache` nor fulfils its promise. -/
theorem doomed_step {p cid : ℕ} {s : SysState} {l : Label} {s' : SysState}
    (hd : Doomed p cid s) (h : Step s l s') :
    Doomed p cid s' ∧ ¬storesOrFulfills p l := by
  obtain ⟨hab, hstat⟩ := hd
  have hplen : p < s.procs.length := by
    rcases hstat with ⟨key, hp⟩ | hp
    · exact lt_length_of_getElem?_eq_some hp
    · exact lt_length_of_getElem?_eq_some hp
  cases h with
  | call_hit bounds fs data c' hget =>
    refine ⟨⟨mem_abortCurrent hab, ?_⟩, ?_⟩
    · rcases hstat with ⟨key, hp⟩ | hp
      · exact Or.inl ⟨key, (List.getElem?_append_left hplen).trans hp⟩
      · exact Or.inr ((List.getElem?_append_left hplen).trans hp)
    · intro hsf
      have : s.procs.length = p := hsf
      omega
  | call_miss bounds fs c' hget =>
    refine ⟨⟨mem_abortCurrent hab, ?_⟩, fun hsf => hsf⟩
    rcases hstat with ⟨key, hp⟩ | hp
    · exact Or.inl ⟨key, (List.getElem?_append_left hplen).trans hp⟩
    · exact Or.inr ((List.getElem?_append_left hplen).trans hp)
  | fetch_abort q cidq keyq hp hab2 =>
    by_cases hqp : q = p
    · subst hqp
      rcases hstat with ⟨key, hpf⟩ | hpf
      · rw [hp] at hpf
        simp only [Option.some.injEq, PStat.pendingFetch.injEq] at hpf
        obtain ⟨rfl, rfl⟩ := hpf
        refine ⟨⟨hab, Or.inr (List.getElem?_set_self hplen)⟩, ?_⟩
        rintro ⟨_, hfalse | ⟨d, hout⟩⟩
        · cases hfalse
        · cases hout
      · rw [hp] at hpf
        exfalso; simp at hpf
    · refine ⟨⟨hab, ?_⟩, ?_⟩
      · rcases hstat with ⟨key, hpf⟩ | hpf
        · exact Or.inl ⟨key, (List.getElem?_set_ne hqp).trans hpf⟩
        · exact Or.inr ((List.getElem?_set_ne hqp).trans hpf)
      · rintro ⟨hq, _⟩; exact hqp hq
  | fetch_error q cidq keyq hp hab2 =>
    by_cases hqp : q = p
    · subst hqp
      rcases hstat with ⟨key, hpf⟩ | hpf
      · rw [hp] at hpf
        simp only [Option.some.injEq, PStat.pendingFetch.injEq] at hpf
        obtain ⟨rfl, rfl⟩ := hpf
        exact absurd hab hab2
      · rw [hp] at hpf
        exfalso; simp at hpf
    · refine ⟨⟨hab, ?_⟩, ?_⟩
      · rcases hstat with ⟨key, hpf⟩ | hpf
        · exact Or.inl ⟨key, (List.getElem?_set_ne hqp).trans hpf⟩
        · exact Or.inr ((List.getElem?_set_ne hqp).trans hpf)
      · rintro ⟨hq, _⟩; exact hqp hq
  | fetch_ok q cidq keyq hp hab2 =>
    by_cases hqp : q = p
    · subst hqp
      rcases hstat with ⟨key, hpf⟩ | hpf
      · rw [hp] at hpf
        simp only [Option.some.injEq, PStat.pendingFetch.injEq] at hpf
        obtain ⟨rfl, rfl⟩ := hpf
        exact absurd hab hab2
      · rw [hp] at hpf
        exfalso; simp at hpf
    · refine ⟨⟨hab, ?_⟩, fun hsf => hsf⟩
      rcases hstat with ⟨key, hpf⟩ | hpf
      · exact Or.inl ⟨key, (List.getElem?_set_ne hqp).trans hpf⟩
      · exact Or.inr ((List.getElem?_set_ne hqp).trans hpf)
  | json_abort q cidq keyq hp hab2 =>
    by_cases hqp : q = p
    · subst hqp
      exfalso
      rcases hstat with ⟨key, hpf⟩ | hpf <;> (rw [hp] at hpf; simp at hpf)
    · refine ⟨⟨hab, ?_⟩, ?_⟩
      · rcases hstat with ⟨key, hpf⟩ | hpf
        · exact Or.inl ⟨key, (List.getElem?_set_ne hqp).trans hpf⟩
        · exact Or.inr ((List.getElem?_set_ne hqp).trans hpf)
      · rintro ⟨hq, _⟩; exact hqp hq
  | json_error q cidq keyq hp =>
    by_cases hqp : q = p
    · subst hqp
      exfalso
      rcases hstat with ⟨key, hpf⟩ | hpf <;> (rw [hp] at hpf; simp at hpf)
    · refine ⟨⟨hab, ?_⟩, ?_⟩
      · rcases hstat with ⟨key, hpf⟩ | hpf
        · exact Or.inl ⟨key, (List.getElem?_set_ne hqp).trans hpf⟩
        · exact Or.inr ((List.getElem?_set_ne hqp).trans hpf)
      · rintro ⟨hq, _⟩; exact hqp hq
  | json_ok q cidq keyq elems fs hp =>
    by_cases hqp : q = p
    · subst hqp
      exfalso
      rcases hstat with ⟨key, hpf⟩ | hpf <;> (rw [hp] at hpf; simp at hpf)
    · refine ⟨⟨hab, ?_⟩, ?_⟩
      · rcases hstat with ⟨key, hpf⟩ | hpf
        · exact Or.inl ⟨key, (List.getElem?_set_ne hqp).trans hpf⟩
        · exact Or.inr ((List.getElem?_set_ne hqp).trans hpf)
      · rintro ⟨hq, _⟩; exact hqp hq
  | timer_fired q cidq keyq hp =>
    exact ⟨⟨List.mem_cons_of_mem _ hab, hstat⟩, fun hsf => hsf⟩
  | tick_step d =>
    exact ⟨⟨hab, hstat⟩, fun hsf => hsf⟩

/-- Doom persists along any execution, and no step of the execution
lets the doomed invocation store or fulfil. -/
theorem doomed_traces {p cid : ℕ} {s : SysState} {ls : List Label} {s' : SysState}
    (h : Traces s ls s') :
    Doomed p cid s → Doomed p cid s' ∧ ∀ l ∈ ls, ¬storesOrFulfills p l := by
  induction h with
  | refl s => exact fun hd => ⟨hd, by simp⟩
  | cons s s' s'' l ls hstep htr ih =>
    intro hd
    obtain ⟨hd', hl⟩ := doomed_step hd hstep
    obtain ⟨hd'', hls⟩ := ih hd'
    refine ⟨hd'', ?_⟩
    intro l' hl'
    rcases List.mem_cons.mp hl' with rfl | hmem
    · exact hl
    · exact hls l' hmem

/-- C1: if a further `fetchCoffeeLocations` call is issued while an
earlier call is still suspended at its network fetch, then along every
continuation the earlier call never runs `setCache` and never fulfils —
it can only stay suspended or reject with `AbortError`. In particular
its eventual response is never stored in the cache and never returned
as the fulfilled value of its promise. -/
theorem fetch_cancellation (s : SysState) (hs : Reachable s) (p cid : ℕ)
    (key : String) (hp : s.procs[p]? = some (.pendingFetch cid key))
    (l : Label) (s' : SysState) (hstep : Step s l s')
    (hcall : isCallStart l = true)
    (ls : List Label) (s'' : SysState) (htr : Traces s' ls s'') :
    (∀ l' ∈ ls, ¬storesOrFulfills p l') ∧
    (∀ data, s''.procs[p]? ≠ some (.completed (.fulfilled data))) := by
  have hwf := wf_reachable hs
  have hplen : p < s.procs.length := lt_length_of_getElem?_eq_some hp
  have habafter : (s.slot = some cid ∨ cid ∈ s.aborted) →
      cid ∈ abortCurrent s.slot s.aborted := by
    intro hor
    rcases hor with hslot | hab
    · rw [hslot]; exact self_mem_abortCurrent
    · exact mem_abortCurrent hab
  have hor : s.slot = some cid ∨ cid ∈ s.aborted :=
    hwf.2.2.2 p cid ⟨_, hp, rfl⟩
  have hd : Doomed p cid s' := by
    cases hstep with
    | call_hit bounds fs data c' hget =>
      exact ⟨habafter hor,
        Or.inl ⟨key, (List.getElem?_append_left hplen).trans hp⟩⟩
    | call_miss bounds fs c' hget =>
      exact ⟨habafter hor,
        Or.inl ⟨key, (List.getElem?_append_left hplen).trans hp⟩⟩
    | fetch_abort q cidq keyq hpq habq => exact Bool.noConfusion hcall
    | fetch_error q cidq keyq hpq habq => exact Bool.noConfusion hcall
    | fetch_ok q cidq keyq hpq habq => exact Bool.noConfusion hcall
    | json_abort q cidq keyq hpq habq => exact Bool.noConfusion hcall
    | json_error q cidq keyq hpq => exact Bool.noConfusion hcall
    | json_ok q cidq keyq elems fs hpq => exact Bool.noConfusion hcall
    | timer_fired q cidq keyq hpq => exact Bool.noConfusion hcall
    | tick_step d => exact Bool.noConfusion hcall
  obtain ⟨hd'', hls⟩ := doomed_traces htr hd
  refine ⟨hls, ?_⟩
  intro data heq
  obtain ⟨_, hstat⟩ := hd''
  rcases hstat with ⟨key', hpend⟩ | hcomp
  · rw [heq] at hpend; simp at hpend
  · rw [heq] at hcomp; simp at hcomp

/-- The `finally`-clause slot update in isolation: it clears the slot
only when the slot holds this invocation's controller, and leaves any
other controller untouched. -/
theorem finalizeSlot_spec (slot : Option ℕ) (cid : ℕ) :
    (finalizeSlot slot cid ≠ slot → slot = some cid ∧ finalizeSlot slot cid = none) ∧
    (∀ d, slot = some d → d ≠ cid → finalizeSlot slot cid = slot) := by
  constructor
  · intro hne
    by_cases h : slot = some cid
    · refine ⟨h, ?_⟩
      unfold finalizeSlot
      rw [if_pos h]
    · exfalso
      apply hne
      unfold finalizeSlot
      rw [if_neg h]
  · intro d hd hdc
    unfold finalizeSlot
    rw [if_neg (by rw [hd]; intro hx; injection hx with h2; exact hdc h2)]

/-- C10: on every settling of a `fetchCoffeeLocations` invocation
(success, error, or cancellation), the `currentAbortController` slot is
set to `null` only when it still holds that invocation's own
controller; when the slot holds a different (newer) controller the
settling leaves it untouched, and a synchronous cache-hit completion
never modifies the slot at all. -/
theorem slot_release (s : SysState) (l : Label) (s' : SysState) (h : Step s l s') :
    (∀ p cid out st, l = Label.complete p cid out st →
      ((s'.slot ≠ s.slot → s.slot = some cid ∧ s'.slot = none) ∧
       (∀ d, s.slot = some d → d ≠ cid → s'.slot = s.slot))) ∧
    (∀ p data, l = Label.callHit p data → s'.slot = s.slot) := by
  cases h with
  | call_hit bounds fs data c' hget =>
    exact ⟨(fun p cid out st heq => nomatch heq), (fun p data heq => rfl)⟩
  | call_miss bounds fs c' hget =>
    exact ⟨(fun p cid out st heq => nomatch heq), (fun p data heq => nomatch heq)⟩
  | fetch_abort q cidq keyq hp hab =>
    refine ⟨?_, fun p data heq => nomatch heq⟩
    intro p cid out st heq
    cases heq
    exact finalizeSlot_spec s.slot cidq
  | fetch_error q cidq keyq hp hab =>
    refine ⟨?_, fun p data heq => nomatch heq⟩
    intro p cid out st heq
    cases heq
    exact finalizeSlot_spec s.slot cidq
  | fetch_ok q cidq keyq hp hab =>
    exact ⟨(fun p cid out st heq => nomatch heq), (fun p data heq => nomatch heq)⟩
  | json_abort q cidq keyq hp hab =>
    refine ⟨?_, fun p data heq => nomatch heq⟩
    intro p cid out st heq
    cases heq
    exact finalizeSlot_spec s.slot cidq
  | json_error q cidq keyq hp =>
    refine ⟨?_, fun p data heq => nomatch heq⟩
    intro p cid out st heq
    cases heq
    exact finalizeSlot_spec s.slot cidq
  | json_ok q cidq keyq elems fs hp =>
    refine ⟨?_, fun p data heq => nomatch heq⟩
    intro p cid out st heq
    cases heq
    exact finalizeSlot_spec s.slot cidq
  | timer_fired q cidq keyq hp =>
    exact ⟨(fun p cid out st heq => nomatch heq), (fun p data heq => nomatch heq)⟩
  | tick_step d =>
    exact ⟨(fun p cid out st heq => nomatch heq), (fun p data heq => nomatch heq)⟩

/-- The key of the viewport used by the concrete executions below. -/
def keyZero : String := getCacheKey ⟨0, 0, 0, 0⟩ filterState

/-- State after one cache-missing call: invocation 0 suspended at its
fetch with controller 0 current. -/
def sysA : SysState := ⟨some 0, [], 1, [], 0, [.pendingFetch 0 keyZero]⟩

/-- State after a second cache-missing call issued while invocation 0
is still in flight: controller 0 aborted, controller 1 current. -/
def sysB : SysState :=
  ⟨some 1, [0], 2, [], 0, [.pendingFetch 0 keyZero, .pendingFetch 1 keyZero]⟩

/-- Witness for C1: in the concrete two-call execution, the superseded
first invocation can never fulfil with a response. -/
theorem fetch_cancellation_witness :
    sysB.procs[0]? ≠ some (PStat.completed (Outcome.fulfilled [])) :=
  (fetch_cancellation sysA
      ⟨[Label.callMiss 0 0],
        Traces.cons initState sysA sysA (Label.callMiss 0 0) []
          (Step.call_miss initState ⟨0, 0, 0, 0⟩ filterState [] rfl)
          (Traces.refl sysA)⟩
      0 0 keyZero rfl
      (Label.callMiss 1 1) sysB
      (Step.call_miss sysA ⟨0, 0, 0, 0⟩ filterState [] rfl)
      rfl
      [] sysB (Traces.refl sysB)).2 []

/-- A state whose single invocation holds the current, already-aborted
controller. -/
def sysC : SysState := ⟨some 0, [0], 1, [], 0, [.pendingFetch 0 keyZero]⟩

/-- `sysC` after its invocation settles as cancelled: the `finally`
clause clears the slot it still owned. -/
def sysD : SysState := ⟨none, [0], 1, [], 0, [.completed .rejectedAbort]⟩

/-- Witness for C10: the settling invocation owned the slot, so the
slot is cleared to `null`. -/
theorem slot_release_witness : sysC.slot = some 0 ∧ sysD.slot = none :=
  ((slot_release sysC (Label.complete 0 0 Outcome.rejectedAbort false) sysD
      (Step.fetch_abort sysC 0 0 keyZero rfl (List.mem_cons_self 0 []))).1
    0 0 Outcome.rejectedAbort false rfl).1 (by decide)
